import Mathlib

/-!
Verification development for the cpplumber leak detector.

The Rust sources are embedded shallowly:
* strings are modelled as `List Char` (Rust iterates `chars()` and slices by
  byte offset; byte slicing is modelled by `byteSlice`, which fails exactly
  when Rust would panic on a non-boundary or out-of-range byte index);
* fallible and panicking computations are modelled with explicit result
  types (`EscOut`, `Res`); machine integers are `Nat` with explicit range
  checks where the Rust code checks them.
-/

namespace Cpplumber

/-- Number of bytes of the UTF-8 encoding of a character. -/
def utf8Len (c : Char) : Nat :=
  if c.toNat < 0x80 then 1
  else if c.toNat < 0x800 then 2
  else if c.toNat < 0x10000 then 3
  else 4

/-- Total UTF-8 byte length of a character list, Rust `str::len`. -/
def byteLen (s : List Char) : Nat :=
  match s with
  | [] => 0
  | c :: rest => utf8Len c + byteLen rest

/-- Drop exactly `n` UTF-8 bytes from the front of `s`; `none` when `n`
falls strictly inside a character or runs past the end (Rust slicing
would panic there). -/
def dropBytes : List Char → Nat → Option (List Char)
  | s, 0 => some s
  | [], _ + 1 => none
  | c :: s, n + 1 =>
    if utf8Len c ≤ n + 1 then dropBytes s (n + 1 - utf8Len c) else none

/-- Take exactly `n` UTF-8 bytes from the front of `s`; `none` when `n`
falls inside a character or past the end. -/
def takeBytes : List Char → Nat → Option (List Char)
  | _, 0 => some []
  | [], _ + 1 => none
  | c :: s, n + 1 =>
    if utf8Len c ≤ n + 1 then (takeBytes s (n + 1 - utf8Len c)).map (c :: ·)
    else none

/-- Rust `&s[a..b]`: the characters between byte offsets `a` and `b`;
`none` models the slicing panic (reversed range, out of range, or an
offset that is not a character boundary). -/
def byteSlice (s : List Char) (a b : Nat) : Option (List Char) :=
  if a ≤ b then (dropBytes s a).bind (fun t => takeBytes t (b - a)) else none

/-- Rust `char::is_digit(8)`: an octal digit. -/
def isOctalDigit (c : Char) : Bool :=
  48 ≤ c.toNat && c.toNat ≤ 55

/-- Rust `u8::from_str_radix(s, 8)`: an optional leading plus sign followed
by at least one octal digit, value at most 255; `none` on any parse or
overflow error (the caller unwraps, so `none` becomes a panic). -/
def parseU8Octal (cs : List Char) : Option Nat :=
  let ds : List Char :=
    match cs with
    | c :: rest => if c = '+' then rest else cs
    | [] => cs
  if ds = [] then none
  else if ds.all isOctalDigit then
    let v := ds.foldl (fun a c => a * 8 + (c.toNat - 48)) 0
    if v ≤ 255 then some v else none
  else none

/-- Value of `end_position` after the second iterator step of the octal
branch: the character at `pos + 2` extends the run when it is an octal
digit. -/
def octalEnd2 (s : List Char) (pos : Nat) : Nat :=
  match s[pos + 2]? with
  | some d => if isOctalDigit d then pos + 3 else pos + 2
  | none => pos + 2

/-- Value of `end_position` after the third iterator step, starting from
`e2`: the character at `pos + 3` extends the run when it is an octal
digit. The check is independent of the second one, exactly as in the
source. -/
def octalEnd3 (s : List Char) (pos e2 : Nat) : Nat :=
  match s[pos + 3]? with
  | some d => if isOctalDigit d then e2 + 1 else e2
  | none => e2

/-- End byte offset (exclusive) of the octal digit run starting after the
backslash at character position `pos`: the first digit sits at `pos + 1`
(so the base value is `pos + 2`), and the characters at `pos + 2` and
`pos + 3` each extend the run by one when they are octal digits. -/
def octalEnd (s : List Char) (pos : Nat) : Nat :=
  octalEnd3 s pos (octalEnd2 s pos)

/-- Outcome of `process_escape_sequences`: a resolved string, the `None`
return for a trailing backslash, or one of the two possible panics (a
byte-slice on a non-boundary, or the unwrap of `u8::from_str_radix`). -/
inductive EscOut where
  | ok : List Char → EscOut
  | errTrailing : EscOut
  | panicSlice : EscOut
  | panicParse : EscOut
deriving DecidableEq, Repr

/-- The loop of `process_escape_sequences`, iterating over the characters
of `s`. `rest` is the unprocessed suffix starting at character position
`pos`; `skipUntil` and `owned` are the two mutable loop variables. -/
def pesGo (s : List Char) : List Char → Nat → Nat → Option (List Char) → EscOut
  | [], _, _, owned => .ok (owned.getD s)
  | c :: rest, pos, skipUntil, owned =>
    if pos ≤ skipUntil then pesGo s rest (pos + 1) skipUntil owned
    else if c = '\\' then
      match (match owned with
             | some b => some b
             | none => byteSlice s 0 pos) with
      | none => .panicSlice
      | some b =>
        match s[pos + 1]? with
        | none => .errTrailing
        | some fc =>
          if fc = 'a' then pesGo s rest (pos + 1) (pos + 1) (some (b ++ ['\x07']))
          else if fc = 'b' then pesGo s rest (pos + 1) (pos + 1) (some (b ++ ['\x08']))
          else if fc = 't' then pesGo s rest (pos + 1) (pos + 1) (some (b ++ ['\t']))
          else if fc = 'n' then pesGo s rest (pos + 1) (pos + 1) (some (b ++ ['\n']))
          else if fc = 'v' then pesGo s rest (pos + 1) (pos + 1) (some (b ++ ['\x0b']))
          else if fc = 'f' then pesGo s rest (pos + 1) (pos + 1) (some (b ++ ['\x0c']))
          else if fc = 'r' then pesGo s rest (pos + 1) (pos + 1) (some (b ++ ['\r']))
          else if fc = ' ' then pesGo s rest (pos + 1) (pos + 1) (some (b ++ [' ']))
          else if fc = '\\' then pesGo s rest (pos + 1) (pos + 1) (some (b ++ ['\\']))
          else if isOctalDigit fc then
            match byteSlice s (pos + 1) (octalEnd s pos) with
            | none => .panicSlice
            | some ds =>
              match parseU8Octal ds with
              | none => .panicParse
              | some v => pesGo s rest (pos + 1) (octalEnd s pos) (some (b ++ [Char.ofNat v]))
          else pesGo s rest (pos + 1) (pos + 1) (some (b ++ [fc]))
    else
      match owned with
      | some b => pesGo s rest (pos + 1) skipUntil (some (b ++ [c]))
      | none => pesGo s rest (pos + 1) skipUntil none

/-- `process_escape_sequences` from `information_leak.rs`. -/
def process_escape_sequences (s : List Char) : EscOut :=
  pesGo s s 0 0 none

/-- The simple-escape map of the loop: the value pushed for a backslash
followed by `fc` when `fc` is not an octal digit. -/
def escChar (fc : Char) : Char :=
  if fc = 'a' then '\x07' else if fc = 'b' then '\x08' else if fc = 't' then '\t'
  else if fc = 'n' then '\n' else if fc = 'v' then '\x0b' else if fc = 'f' then '\x0c'
  else if fc = 'r' then '\r' else if fc = ' ' then ' ' else if fc = '\\' then '\\'
  else fc

/-- UTF-8 bytes of one character (`String::as_bytes`, per character). -/
def utf8Bytes (c : Char) : List Nat :=
  let v := c.toNat
  if v < 0x80 then [v]
  else if v < 0x800 then [0xC0 + v / 64, 0x80 + v % 64]
  else if v < 0x10000 then [0xE0 + v / 4096, 0x80 + v / 64 % 64, 0x80 + v % 64]
  else [0xF0 + v / 262144, 0x80 + v / 4096 % 64, 0x80 + v / 64 % 64, 0x80 + v % 64]

/-- UTF-8 bytes of a character list. -/
def utf8Encode : List Char → List Nat
  | [] => []
  | c :: rest => utf8Bytes c ++ utf8Encode rest

/-- Little-endian bytes of a 16-bit code unit. -/
def u16le (u : Nat) : List Nat := [u % 256, u / 256 % 256]

/-- UTF-16 code units of one character (`widestring::encode_utf16`). -/
def utf16Units (c : Char) : List Nat :=
  let v := c.toNat
  if v < 0x10000 then [v]
  else [0xD800 + (v - 0x10000) / 0x400, 0xDC00 + (v - 0x10000) % 0x400]

/-- UTF-16LE bytes of a character list. -/
def utf16leEncode : List Char → List Nat
  | [] => []
  | c :: rest => (utf16Units c).foldr (fun u acc => u16le u ++ acc) [] ++ utf16leEncode rest

/-- Little-endian bytes of a 32-bit code unit. -/
def u32le (u : Nat) : List Nat :=
  [u % 256, u / 256 % 256, u / 65536 % 256, u / 16777216 % 256]

/-- UTF-32LE bytes of a character list (`widestring::encode_utf32`). -/
def utf32leEncode : List Char → List Nat
  | [] => []
  | c :: rest => u32le c.toNat ++ utf32leEncode rest

/-- Result of a Rust computation that can panic. -/
inductive Res (α : Type) where
  | ok : α → Res α
  | panicked : Res α
deriving DecidableEq, Repr

/-- Shared tail of every branch of `string_literal_to_bytes`: slice the
body out of the raw token (byte offsets `start` to `len - 1`), run
`process_escape_sequences`, unwrap its result (panicking on `None`), and
encode. -/
def decodeLiteralBody (lit : List Char) (start : Nat) (enc : List Char → List Nat) :
    Res (List Nat) :=
  match byteSlice lit start (byteLen lit - 1) with
  | none => .panicked
  | some body =>
    match process_escape_sequences body with
    | .ok cs => .ok (enc cs)
    | _ => .panicked

/-- `string_literal_to_bytes` from `information_leak.rs`: dispatch on the
literal prefix, then slice, resolve escapes, and encode. Unknown prefixes
hit the `unreachable` arm; the `u` branch unwraps the second and third
characters. -/
def string_literal_to_bytes (lit : List Char) : Res (List Nat) :=
  match lit with
  | [] => .ok []
  | c :: rest =>
    if c = '"' then decodeLiteralBody lit 1 utf8Encode
    else if c = 'L' then decodeLiteralBody lit 2 utf16leEncode
    else if c = 'U' then decodeLiteralBody lit 2 utf32leEncode
    else if c = 'u' then
      match rest with
      | [] => .panicked
      | c2 :: rest2 =>
        match rest2 with
        | [] => .panicked
        | c3 :: _ =>
          if c2 = '8' ∧ c3 = '"' then decodeLiteralBody lit 3 utf8Encode
          else decodeLiteralBody lit 2 utf16leEncode
    else .panicked

/-!  Data model: `InformationLeakDescription` (alias `PotentialLeak`),
`ConfirmedLeak` and its location types, from `information_leak.rs`.  -/

/-- `InformationLeakDescription` from `information_leak.rs`. Paths are
modelled as strings, `declaration_metadata` is (file path, line). -/
structure InformationLeakDescription where
  leaked_information : String
  bytes : List Nat
  declaration_metadata : String × Nat
deriving DecidableEq, Repr

/-- `main.rs` imports the structure under this name. -/
abbrev PotentialLeak := InformationLeakDescription

/-- Binary half of a confirmed leak location. -/
structure BinaryLocation where
  file : String
  offset : Nat
deriving DecidableEq, Repr

/-- Source and binary location of a confirmed leak. -/
structure LeakLocation where
  source : String × Nat
  binary : BinaryLocation
deriving DecidableEq, Repr

/-- `ConfirmedLeak`: a potential leak found in the binary. -/
structure ConfirmedLeak where
  leaked_information : String
  location : LeakLocation
deriving DecidableEq, Repr

/-- The `PartialEq` implementation: equality looks only at
`leaked_information`. -/
def leakBEq (a b : PotentialLeak) : Bool :=
  a.leaked_information == b.leaked_information

/-- The `Hash` implementation hashes only the `leaked_information` field;
the hasher itself is a parameter, as in Rust. -/
def leakHash (hasher : String → UInt64) (a : PotentialLeak) : UInt64 :=
  hasher a.leaked_information

/-!  The binary scanner, `find_leaks_in_binary_file` from `main.rs`.  -/

/-- The window of `binData` of length `n` starting at byte offset `i`
(an element of Rust `bin_data.windows(n)`). -/
def windowAt (binData : List Nat) (n i : Nat) : List Nat :=
  (binData.drop i).take n

/-- `Iterator::position` over window start offsets: the first offset in
`[start, start + fuel)` whose window satisfies `p`. -/
def posAux (p : Nat → Bool) : Nat → Nat → Option Nat
  | _, 0 => none
  | start, fuel + 1 => if p start then some start else posAux p (start + 1) fuel

/-- `bin_data.windows(pat.length).position(.. == pat)`: the lowest window
offset whose window equals `pat`. There are `len - n + 1` windows when
`n ≤ len` and none otherwise. Only defined for `pat` nonempty; the
caller checks that, because Rust `windows(0)` panics. -/
def positionOfMatch (binData pat : List Nat) : Option Nat :=
  posAux (fun i => decide (windowAt binData pat.length i = pat)) 0
    (binData.length + 1 - pat.length)

/-- One step of the scanner `filter_map`: `none` inside `.ok` when the
pattern is absent, and a panic when `bytes` is empty, because Rust
`slice::windows` panics on a zero window size. -/
def scanOne (binaryFile : String) (binData : List Nat) (leak : PotentialLeak) :
    Res (Option ConfirmedLeak) :=
  if leak.bytes = [] then .panicked
  else
    .ok ((positionOfMatch binData leak.bytes).map fun offset =>
      { leaked_information := leak.leaked_information
        location :=
          { source := leak.declaration_metadata
            binary := { file := binaryFile, offset := offset } } })

/-- `find_leaks_in_binary_file` from `main.rs`, with the binary content
already read into `binData`: a `filter_map` over the candidates, in
order, with panics propagated. -/
def find_leaks_in_binary_file (binaryFile : String) (binData : List Nat) :
    List PotentialLeak → Res (List ConfirmedLeak)
  | [] => .ok []
  | l :: ls =>
    match scanOne binaryFile binData l with
    | .panicked => .panicked
    | .ok none => find_leaks_in_binary_file binaryFile binData ls
    | .ok (some c) =>
      match find_leaks_in_binary_file binaryFile binData ls with
      | .panicked => .panicked
      | .ok cs => .ok (c :: cs)

/-!  Catalog building: suppression filtering, artifact extraction and
duplicate merging, from `main.rs`. The clang AST walk and the parsers for
the suppression file and the compilation database live outside `src/`;
they are modelled from the spec as abstract data (a glob pattern is an
arbitrary predicate on paths, a translation unit is an arbitrary list of
string-literal entities).  -/

/-- Modelled from the spec: the parsed suppressions value produced by the
(out of scope) suppressions-file parser, two independent collections: file
path glob patterns and exact literal texts. A pattern is modelled as a
predicate on paths. -/
structure Suppressions where
  files : List (String → Bool)
  artifacts : List String

/-- Modelled from the spec: one record of the compilation database
collaborator: directory, filename, compiler argument list. -/
structure CompileCommand where
  directory : String
  filename : String
  arguments : List String

/-- Absolute Unix path: first character is a slash. -/
def isAbsolute (file : String) : Bool :=
  match file.data with
  | '/' :: _ => true
  | _ => false

/-- `PathBuf::join` for Unix-style string paths: an absolute `file`
replaces `dir`. -/
def pathJoin (dir file : String) : String :=
  if isAbsolute file then file else dir ++ "/" ++ file

/-- `filter_suppressed_files` from `main.rs`: drop every compile command
whose directory-joined filename matches some file glob. -/
def filter_suppressed_files (cmds : List CompileCommand) (supp : Option Suppressions) :
    List CompileCommand :=
  match supp with
  | none => cmds
  | some s =>
    cmds.filter fun cmd =>
      !(s.files.any fun pat => pat (pathJoin cmd.directory cmd.filename))

/-- Modelled from the spec: a string-literal entity yielded by the AST
collaborator for a translation unit: raw lexical text, declaring file
path, declaring line, and the system-header flag. -/
structure SourceEntity where
  display_name : String
  file : String
  line : Nat
  in_system_header : Bool

/-- The `TryFrom Entity` implementation for string literals: transcode the
display name (a panic inside `string_literal_to_bytes` propagates) and
record the declaring location. -/
def leak_of_entity (e : SourceEntity) : Res PotentialLeak :=
  match string_literal_to_bytes e.display_name.toList with
  | .panicked => .panicked
  | .ok bs =>
    .ok { leaked_information := e.display_name
          bytes := bs
          declaration_metadata := (e.file, e.line) }

/-- Conversion of the entities of one translation unit, skipping entities
in system headers when requested (`gather_entities_by_kind`). -/
def extractFromEntities : List SourceEntity → Bool → Res (List PotentialLeak)
  | [], _ => .ok []
  | e :: es, ignoreSys =>
    if ignoreSys && e.in_system_header then extractFromEntities es ignoreSys
    else
      match leak_of_entity e with
      | .panicked => .panicked
      | .ok l =>
        match extractFromEntities es ignoreSys with
        | .panicked => .panicked
        | .ok ls => .ok (l :: ls)

/-- `extract_artifacts_from_source_files` from `main.rs`, with the clang
parse abstracted by `provider`, which maps a compile command to the
string-literal entities of its translation unit. -/
def extract_artifacts_from_source_files (provider : CompileCommand → List SourceEntity) :
    List CompileCommand → Bool → Res (List PotentialLeak)
  | [], _ => .ok []
  | c :: cs, ignoreSys =>
    match extractFromEntities (provider c) ignoreSys with
    | .panicked => .panicked
    | .ok ls =>
      match extract_artifacts_from_source_files provider cs ignoreSys with
      | .panicked => .panicked
      | .ok more => .ok (ls ++ more)

/-- `filter_suppressed_artifacts` from `main.rs`: drop leaks whose literal
text exactly equals a suppressed artifact. -/
def filter_suppressed_artifacts (leaks : List PotentialLeak) (supp : Option Suppressions) :
    List PotentialLeak :=
  match supp with
  | none => leaks
  | some s => leaks.filter fun l => !(s.artifacts.contains l.leaked_information)

/-- The catalog-building part of `main`: filter suppressed files, extract
artifacts, filter suppressed artifacts. -/
def buildCatalog (provider : CompileCommand → List SourceEntity)
    (cmds : List CompileCommand) (supp : Option Suppressions) (ignoreSys : Bool) :
    Res (List PotentialLeak) :=
  match extract_artifacts_from_source_files provider (filter_suppressed_files cmds supp) ignoreSys with
  | .panicked => .panicked
  | .ok ls => .ok (filter_suppressed_artifacts ls supp)

/-- `HashSet::from_iter` in `main`, observed through which representative
of each equality class survives: `insert` keeps the already-present
element, so the first admitted leak of each `leaked_information` value is
retained. -/
def mergeDuplicates (leaks : List PotentialLeak) : List PotentialLeak :=
  leaks.foldl (fun acc l => if acc.any fun x => leakBEq x l then acc else acc ++ [l]) []

/-- The branch on `ignore_multiple_declarations` in `main`. -/
def dedupIfRequested (merge : Bool) (leaks : List PotentialLeak) : List PotentialLeak :=
  if merge then mergeDuplicates leaks else leaks

/-- Defined from the words of the spec, for comparison with
`mergeDuplicates`: keep, in encounter order, the first occurrence of each
`leaked_information` value. -/
def firstOccurrenceReps : List PotentialLeak → List PotentialLeak
  | [] => []
  | l :: ls => l :: firstOccurrenceReps (ls.filter fun x => !(leakBEq l x))
termination_by ls => ls.length
decreasing_by
  simp only [List.length_cons]
  exact Nat.lt_succ_of_le (List.length_filter_le _ _)

/-!  Helper lemmas about byte-offset slicing on ASCII strings.  -/

theorem utf8Len_of_ascii {c : Char} (h : c.toNat < 128) : utf8Len c = 1 := by
  simp [utf8Len]
  omega

theorem byteLen_of_ascii {s : List Char} (h : ∀ c ∈ s, c.toNat < 128) :
    byteLen s = s.length := by
  induction s with
  | nil => rfl
  | cons c rest ih =>
    simp only [byteLen, List.length_cons]
    rw [utf8Len_of_ascii (h c (by simp)), ih fun x hx => h x (by simp [hx])]
    omega

theorem dropBytes_ascii_append {l₁ : List Char} (l₂ : List Char)
    (h : ∀ c ∈ l₁, c.toNat < 128) : dropBytes (l₁ ++ l₂) l₁.length = some l₂ := by
  induction l₁ with
  | nil => simp [dropBytes]
  | cons c rest ih =>
    simp only [List.cons_append, List.length_cons, dropBytes]
    rw [utf8Len_of_ascii (h c (by simp))]
    simp only [if_pos (by omega : 1 ≤ rest.length + 1), Nat.add_sub_cancel]
    exact ih fun x hx => h x (by simp [hx])

theorem takeBytes_ascii_append {l₁ : List Char} (l₂ : List Char)
    (h : ∀ c ∈ l₁, c.toNat < 128) : takeBytes (l₁ ++ l₂) l₁.length = some l₁ := by
  induction l₁ with
  | nil => simp [takeBytes]
  | cons c rest ih =>
    simp only [List.cons_append, List.length_cons, takeBytes]
    rw [utf8Len_of_ascii (h c (by simp))]
    simp only [if_pos (by omega : 1 ≤ rest.length + 1), Nat.add_sub_cancel,
      List.append_eq]
    rw [ih fun x hx => h x (by simp [hx])]
    rfl

theorem dropBytes_ascii_of_le {s : List Char} {n : Nat}
    (h : ∀ c ∈ s, c.toNat < 128) (hn : n ≤ s.length) :
    dropBytes s n = some (s.drop n) := by
  induction s generalizing n with
  | nil =>
    have : n = 0 := by simpa using hn
    subst this
    simp [dropBytes]
  | cons c rest ih =>
    match n with
    | 0 => simp [dropBytes]
    | n + 1 =>
      simp only [dropBytes, List.drop_succ_cons]
      rw [utf8Len_of_ascii (h c (by simp))]
      simp only [if_pos (by omega : 1 ≤ n + 1), Nat.add_sub_cancel]
      exact ih (fun x hx => h x (by simp [hx])) (by simpa using hn)

theorem takeBytes_ascii_of_le {s : List Char} {n : Nat}
    (h : ∀ c ∈ s, c.toNat < 128) (hn : n ≤ s.length) :
    takeBytes s n = some (s.take n) := by
  induction s generalizing n with
  | nil =>
    have : n = 0 := by simpa using hn
    subst this
    simp [takeBytes]
  | cons c rest ih =>
    match n with
    | 0 => simp [takeBytes]
    | n + 1 =>
      simp only [takeBytes, List.take_succ_cons]
      rw [utf8Len_of_ascii (h c (by simp))]
      simp only [if_pos (by omega : 1 ≤ n + 1), Nat.add_sub_cancel]
      rw [ih (fun x hx => h x (by simp [hx])) (by simpa using hn)]
      rfl

theorem byteSlice_ascii {s : List Char} {a b : Nat}
    (h : ∀ c ∈ s, c.toNat < 128) (hab : a ≤ b) (hb : b ≤ s.length) :
    byteSlice s a b = some ((s.drop a).take (b - a)) := by
  unfold byteSlice
  rw [if_pos hab, dropBytes_ascii_of_le h (le_trans hab hb)]
  simp only [Option.some_bind]
  exact takeBytes_ascii_of_le
    (fun x hx => h x (List.drop_subset a s hx))
    (by simp [List.length_drop]; omega)

/-!  Helper lemmas about indexing into appended lists.  -/

theorem getElem?_append_add {α : Type} (l₁ l₂ : List α) (k : Nat) :
    (l₁ ++ l₂)[l₁.length + k]? = l₂[k]? := by
  induction l₁ with
  | nil => simp
  | cons c rest ih =>
    have : rest.length + 1 + k = (rest.length + k) + 1 := by omega
    simp only [List.cons_append, List.length_cons, this, List.getElem?_cons_succ]
    exact ih

/-!  Walking lemmas for the escape-resolution loop.  -/

theorem pesGo_nil (s : List Char) (pos skipU : Nat) (owned : Option (List Char)) :
    pesGo s [] pos skipU owned = .ok (owned.getD s) := by
  rw [pesGo]

theorem pesGo_walk_plain (s : List Char) {pre : List Char} (tail : List Char)
    (h : ∀ c ∈ pre, c ≠ '\\') (pos skipU : Nat) :
    pesGo s (pre ++ tail) pos skipU none = pesGo s tail (pos + pre.length) skipU none := by
  induction pre generalizing pos with
  | nil => simp
  | cons c rest ih =>
    have hc : c ≠ '\\' := h c (by simp)
    have harith : pos + (rest.length + 1) = (pos + 1) + rest.length := by omega
    simp only [List.cons_append, List.length_cons, harith]
    by_cases hskip : pos ≤ skipU
    · rw [show pesGo s (c :: (rest ++ tail)) pos skipU none
            = pesGo s (rest ++ tail) (pos + 1) skipU none by
        simp [pesGo, hskip]]
      exact ih (fun x hx => h x (by simp [hx])) (pos + 1)
    · rw [show pesGo s (c :: (rest ++ tail)) pos skipU none
            = pesGo s (rest ++ tail) (pos + 1) skipU none by
        simp [pesGo, hskip, hc]]
      exact ih (fun x hx => h x (by simp [hx])) (pos + 1)

theorem pesGo_push_plain (s : List Char) {rest : List Char} (b : List Char)
    (h : ∀ c ∈ rest, c ≠ '\\') (pos skipU : Nat) (hpos : skipU < pos) :
    pesGo s rest pos skipU (some b) = .ok (b ++ rest) := by
  induction rest generalizing pos b with
  | nil => simp [pesGo]
  | cons c rest ih =>
    have hc : c ≠ '\\' := h c (by simp)
    rw [show pesGo s (c :: rest) pos skipU (some b)
          = pesGo s rest (pos + 1) skipU (some (b ++ [c])) by
      simp [pesGo, show ¬ pos ≤ skipU by omega, hc]]
    rw [ih (b ++ [c]) (fun x hx => h x (by simp [hx])) (pos + 1) (by omega)]
    simp

theorem process_plain {s : List Char} (h : ∀ c ∈ s, c ≠ '\\') :
    process_escape_sequences s = .ok s := by
  unfold process_escape_sequences
  have := pesGo_walk_plain s [] h 0 0
  rw [List.append_nil] at this
  rw [this, pesGo_nil]
  rfl

theorem dropBytes_zero (s : List Char) : dropBytes s 0 = some s := by
  rw [dropBytes]

theorem byteSlice_prefix_of_append {l₁ l₂ : List Char} (h : ∀ c ∈ l₁, c.toNat < 128) :
    byteSlice (l₁ ++ l₂) 0 l₁.length = some l₁ := by
  unfold byteSlice
  rw [if_pos (Nat.zero_le _), dropBytes_zero]
  simp only [Option.some_bind, Nat.sub_zero]
  exact takeBytes_ascii_append l₂ h

theorem byteSlice_sandwich {l₁ l₂ : List Char} (l₃ : List Char)
    (h₁ : ∀ c ∈ l₁, c.toNat < 128) (h₂ : ∀ c ∈ l₂, c.toNat < 128) :
    byteSlice (l₁ ++ l₂ ++ l₃) l₁.length (l₁.length + l₂.length) = some l₂ := by
  unfold byteSlice
  rw [if_pos (Nat.le_add_right _ _), List.append_assoc, dropBytes_ascii_append _ h₁]
  simp only [Option.some_bind, Nat.add_sub_cancel_left]
  exact takeBytes_ascii_append l₃ h₂

/-!  The backslash step of the loop: trailing-backslash and octal cases.  -/

theorem isOctalDigit_ne {c d : Char} (h : isOctalDigit c = true)
    (hd : isOctalDigit d = false) : c ≠ d := by
  intro he
  rw [he] at h
  rw [h] at hd
  exact absurd hd (by decide)

theorem pesGo_bs_trailing {s rest : List Char} {pos skipU : Nat} {b : List Char}
    (hskip : ¬ pos ≤ skipU) (hb : byteSlice s 0 pos = some b)
    (hnone : s[pos + 1]? = none) :
    pesGo s ('\\' :: rest) pos skipU none = .errTrailing := by
  simp [pesGo, hskip, hb, hnone]

theorem pesGo_bs_octal {s rest : List Char} {pos skipU : Nat} {b : List Char} {fc : Char}
    (hskip : ¬ pos ≤ skipU) (hb : byteSlice s 0 pos = some b)
    (hfc : s[pos + 1]? = some fc) (hoct : isOctalDigit fc = true) :
    pesGo s ('\\' :: rest) pos skipU none =
      (match byteSlice s (pos + 1) (octalEnd s pos) with
       | none => .panicSlice
       | some ds =>
         match parseU8Octal ds with
         | none => .panicParse
         | some v => pesGo s rest (pos + 1) (octalEnd s pos) (some (b ++ [Char.ofNat v]))) := by
  have na : fc ≠ 'a' := isOctalDigit_ne hoct (by decide)
  have nb : fc ≠ 'b' := isOctalDigit_ne hoct (by decide)
  have nt : fc ≠ 't' := isOctalDigit_ne hoct (by decide)
  have nn : fc ≠ 'n' := isOctalDigit_ne hoct (by decide)
  have nv : fc ≠ 'v' := isOctalDigit_ne hoct (by decide)
  have nf : fc ≠ 'f' := isOctalDigit_ne hoct (by decide)
  have nr : fc ≠ 'r' := isOctalDigit_ne hoct (by decide)
  have nsp : fc ≠ ' ' := isOctalDigit_ne hoct (by decide)
  have nbs : fc ≠ '\\' := isOctalDigit_ne hoct (by decide)
  simp [pesGo, hskip, hb, hfc, na, nb, nt, nn, nv, nf, nr, nsp, nbs, hoct]

/-- A nonempty run of plain ASCII characters followed by a bare trailing
backslash makes `process_escape_sequences` return its error value (the
Rust `None`). -/
theorem process_trailing_backslash {pre : List Char}
    (hA : ∀ c ∈ pre, c.toNat < 128) (hB : ∀ c ∈ pre, c ≠ '\\') (hne : pre ≠ []) :
    process_escape_sequences (pre ++ ['\\']) = .errTrailing := by
  unfold process_escape_sequences
  rw [pesGo_walk_plain (pre ++ ['\\']) ['\\'] hB 0 0]
  have hlen : 0 < pre.length := List.length_pos.mpr hne
  have hskip : ¬ 0 + pre.length ≤ 0 := by omega
  have hb : byteSlice (pre ++ ['\\']) 0 (0 + pre.length) = some pre := by
    rw [Nat.zero_add]
    exact byteSlice_prefix_of_append hA
  have hnone : (pre ++ ['\\'])[0 + pre.length + 1]? = none := by
    refine List.getElem?_eq_none ?_
    simp
  exact pesGo_bs_trailing hskip hb hnone

theorem ascii_of_octalDigit {c : Char} (h : isOctalDigit c = true) : c.toNat < 128 := by
  simp only [isOctalDigit, Bool.and_eq_true, decide_eq_true_eq] at h
  omega

/-- A maximal three-digit octal escape whose value exceeds 255 makes the
loop panic in the unwrap of `u8::from_str_radix`. -/
theorem process_octal_overflow {pre : List Char} {d1 d2 d3 : Char}
    (hA : ∀ c ∈ pre, c.toNat < 128) (hB : ∀ c ∈ pre, c ≠ '\\') (hne : pre ≠ [])
    (h1 : isOctalDigit d1 = true) (h2 : isOctalDigit d2 = true)
    (h3 : isOctalDigit d3 = true)
    (hv : 255 < (d1.toNat - 48) * 64 + (d2.toNat - 48) * 8 + (d3.toNat - 48)) :
    process_escape_sequences (pre ++ '\\' :: [d1, d2, d3]) = .panicParse := by
  unfold process_escape_sequences
  rw [pesGo_walk_plain (pre ++ '\\' :: [d1, d2, d3]) ('\\' :: [d1, d2, d3]) hB 0 0]
  simp only [Nat.zero_add]
  have hlen : 0 < pre.length := List.length_pos.mpr hne
  have hskip : ¬ pre.length ≤ 0 := by omega
  have hb : byteSlice (pre ++ '\\' :: [d1, d2, d3]) 0 pre.length = some pre :=
    byteSlice_prefix_of_append hA
  have hd1 : (pre ++ '\\' :: [d1, d2, d3])[pre.length + 1]? = some d1 := by
    rw [getElem?_append_add]
    rfl
  have hd2 : (pre ++ '\\' :: [d1, d2, d3])[pre.length + 2]? = some d2 := by
    rw [getElem?_append_add]
    rfl
  have hd3 : (pre ++ '\\' :: [d1, d2, d3])[pre.length + 3]? = some d3 := by
    rw [getElem?_append_add]
    rfl
  rw [pesGo_bs_octal hskip hb hd1 h1]
  have hend : octalEnd (pre ++ '\\' :: [d1, d2, d3]) pre.length = pre.length + 4 := by
    unfold octalEnd octalEnd3 octalEnd2
    simp only [hd2, hd3, h2, h3, if_true]
  rw [hend]
  have hshape : pre ++ '\\' :: [d1, d2, d3] = (pre ++ ['\\']) ++ [d1, d2, d3] ++ [] := by
    simp
  have hslice : byteSlice (pre ++ '\\' :: [d1, d2, d3]) (pre.length + 1) (pre.length + 4)
      = some [d1, d2, d3] := by
    rw [hshape]
    have := byteSlice_sandwich ([] : List Char)
      (show ∀ c ∈ pre ++ ['\\'], c.toNat < 128 by
        intro c hc
        rcases List.mem_append.mp hc with h | h
        · exact hA c h
        · simp at h
          subst h
          decide)
      (show ∀ c ∈ [d1, d2, d3], c.toNat < 128 by
        intro c hc
        simp at hc
        rcases hc with h | h | h <;> subst h
        · exact ascii_of_octalDigit h1
        · exact ascii_of_octalDigit h2
        · exact ascii_of_octalDigit h3)
    simpa using this
  rw [hslice]
  have hparse : parseU8Octal [d1, d2, d3] = none := by
    have hp : d1 ≠ '+' := isOctalDigit_ne h1 (by decide)
    unfold parseU8Octal
    simp only [hp, if_false, reduceCtorEq, List.all_cons, List.all_nil, h1, h2, h3,
      Bool.and_true, Bool.and_self, if_true, List.foldl]
    have hgt : ¬ (((0 * 8 + (d1.toNat - 48)) * 8 + (d2.toNat - 48)) * 8 + (d3.toNat - 48) ≤ 255) := by
      omega
    rw [if_neg hgt]
  simp only [hslice, hparse]

/-!  Branch lemmas for `string_literal_to_bytes` on ASCII tokens: slicing
the body out of the token and delegating to escape resolution.  -/

theorem decodeLiteralBody_sandwich {l₁ body : List Char} (enc : List Char → List Nat)
    (h₁ : ∀ c ∈ l₁, c.toNat < 128) (h₂ : ∀ c ∈ body, c.toNat < 128) :
    decodeLiteralBody (l₁ ++ body ++ ['"']) l₁.length enc =
      (match process_escape_sequences body with
       | .ok cs => .ok (enc cs)
       | _ => .panicked) := by
  unfold decodeLiteralBody
  have hasc : ∀ c ∈ l₁ ++ body ++ ['"'], c.toNat < 128 := by
    intro c hc
    rcases List.mem_append.mp hc with h | h
    · rcases List.mem_append.mp h with h | h
      · exact h₁ c h
      · exact h₂ c h
    · simp at h
      subst h
      decide
  rw [byteLen_of_ascii hasc]
  have hlen : (l₁ ++ body ++ ['"']).length - 1 = l₁.length + body.length := by
    simp
  rw [hlen, byteSlice_sandwich ['"'] h₁ h₂]

theorem stb_narrow {body : List Char} (hA : ∀ c ∈ body, c.toNat < 128) :
    string_literal_to_bytes ('"' :: body ++ ['"']) =
      (match process_escape_sequences body with
       | .ok cs => .ok (utf8Encode cs)
       | _ => .panicked) := by
  have hshape : ('"' :: body ++ ['"'] : List Char) = ['"'] ++ body ++ ['"'] := by simp
  rw [show string_literal_to_bytes ('"' :: body ++ ['"'])
        = decodeLiteralBody ('"' :: body ++ ['"']) 1 utf8Encode by
    simp [string_literal_to_bytes]]
  rw [hshape]
  exact decodeLiteralBody_sandwich utf8Encode (by decide) hA

theorem stb_wide {body : List Char} (hA : ∀ c ∈ body, c.toNat < 128) :
    string_literal_to_bytes ('L' :: '"' :: body ++ ['"']) =
      (match process_escape_sequences body with
       | .ok cs => .ok (utf16leEncode cs)
       | _ => .panicked) := by
  have hshape : ('L' :: '"' :: body ++ ['"'] : List Char) = ['L', '"'] ++ body ++ ['"'] := by
    simp
  rw [show string_literal_to_bytes ('L' :: '"' :: body ++ ['"'])
        = decodeLiteralBody ('L' :: '"' :: body ++ ['"']) 2 utf16leEncode by
    simp [string_literal_to_bytes]]
  rw [hshape]
  exact decodeLiteralBody_sandwich utf16leEncode (by decide) hA

theorem stb_utf32 {body : List Char} (hA : ∀ c ∈ body, c.toNat < 128) :
    string_literal_to_bytes ('U' :: '"' :: body ++ ['"']) =
      (match process_escape_sequences body with
       | .ok cs => .ok (utf32leEncode cs)
       | _ => .panicked) := by
  have hshape : ('U' :: '"' :: body ++ ['"'] : List Char) = ['U', '"'] ++ body ++ ['"'] := by
    simp
  rw [show string_literal_to_bytes ('U' :: '"' :: body ++ ['"'])
        = decodeLiteralBody ('U' :: '"' :: body ++ ['"']) 2 utf32leEncode by
    simp [string_literal_to_bytes]]
  rw [hshape]
  exact decodeLiteralBody_sandwich utf32leEncode (by decide) hA

theorem stb_utf8 {body : List Char} (hA : ∀ c ∈ body, c.toNat < 128) :
    string_literal_to_bytes ('u' :: '8' :: '"' :: body ++ ['"']) =
      (match process_escape_sequences body with
       | .ok cs => .ok (utf8Encode cs)
       | _ => .panicked) := by
  have hshape : ('u' :: '8' :: '"' :: body ++ ['"'] : List Char)
      = ['u', '8', '"'] ++ body ++ ['"'] := by simp
  rw [show string_literal_to_bytes ('u' :: '8' :: '"' :: body ++ ['"'])
        = decodeLiteralBody ('u' :: '8' :: '"' :: body ++ ['"']) 3 utf8Encode by
    simp [string_literal_to_bytes]]
  rw [hshape]
  exact decodeLiteralBody_sandwich utf8Encode (by decide) hA

theorem stb_utf16 {body : List Char} (hA : ∀ c ∈ body, c.toNat < 128) :
    string_literal_to_bytes ('u' :: '"' :: body ++ ['"']) =
      (match process_escape_sequences body with
       | .ok cs => .ok (utf16leEncode cs)
       | _ => .panicked) := by
  have hshape : ('u' :: '"' :: body ++ ['"'] : List Char) = ['u', '"'] ++ body ++ ['"'] := by
    simp
  rw [show string_literal_to_bytes ('u' :: '"' :: body ++ ['"'])
        = decodeLiteralBody ('u' :: '"' :: body ++ ['"']) 2 utf16leEncode by
    cases body <;> simp [string_literal_to_bytes]]
  rw [hshape]
  exact decodeLiteralBody_sandwich utf16leEncode (by decide) hA

/-!  Claim theorems.  -/

/-- C1 counterexample: the claim states that a PotentialLeak with empty
`bytes` is skipped and the scan completes normally for any buffer; in the
code `bin_data.windows(0)` panics, so the scan does not complete. -/
theorem C1_counterexample :
    find_leaks_in_binary_file "bin" [0x41, 0x42] [⟨"t", [], ("f", 1)⟩] = .panicked := by
  decide

/-- C1 (amended): a PotentialLeak whose byte pattern is empty makes the
scanner panic (Rust `slice::windows` panics on window size zero), aborting
the whole scan; no ConfirmedLeak list is produced at all. -/
theorem C1_empty_pattern_panics (bin : String) (binData : List Nat)
    (leaks : List PotentialLeak) (l : PotentialLeak)
    (hmem : l ∈ leaks) (hempty : l.bytes = []) :
    find_leaks_in_binary_file bin binData leaks = .panicked := by
  induction leaks with
  | nil => cases hmem
  | cons h t ih =>
    rcases List.mem_cons.mp hmem with rfl | hm
    · simp [find_leaks_in_binary_file, scanOne, hempty]
    · by_cases hh : h.bytes = []
      · simp [find_leaks_in_binary_file, scanOne, hh]
      · cases hpos : positionOfMatch binData h.bytes <;>
          simp [find_leaks_in_binary_file, scanOne, hh, hpos, ih hm]

/-- C1 witness: a concrete scan with one matching candidate followed by an
empty-pattern candidate still panics. -/
theorem C1_witness :
    find_leaks_in_binary_file "out" [1, 2, 3]
      [⟨"s", [9], ("g", 2)⟩, ⟨"e", [], ("h", 3)⟩] = .panicked :=
  C1_empty_pattern_panics "out" [1, 2, 3] _ ⟨"e", [], ("h", 3)⟩ (by decide) rfl

/-- C2 counterexample: the claim states that a trailing unescaped
backslash is a recoverable failure, with the token dropped and the run
continuing; in the code `string_literal_to_bytes` unwraps the `None` and
panics on the token with body `ab` followed by a backslash, and the body
consisting of a single backslash does not fail at all (the loop skips
position 0), so neither half of the claim holds. -/
theorem C2_counterexample :
    string_literal_to_bytes ['"', 'a', 'b', '\\', '"'] = .panicked ∧
    process_escape_sequences ['\\'] = .ok ['\\'] := by
  decide

/-- C2 (amended): for a body made of nonempty plain ASCII text followed by
a trailing unescaped backslash, `process_escape_sequences` returns its
recoverable error value, but `string_literal_to_bytes` unwraps that result
and panics, so the token is not dropped and the run aborts; a body that is
a single backslash (position 0) is passed through unchanged instead of
failing. -/
theorem C2_trailing_backslash_panics :
    (∀ pre : List Char, pre ≠ [] → (∀ c ∈ pre, c.toNat < 128) →
      (∀ c ∈ pre, c ≠ '\\') →
      process_escape_sequences (pre ++ ['\\']) = .errTrailing ∧
      string_literal_to_bytes ('"' :: (pre ++ ['\\']) ++ ['"']) = .panicked) ∧
    process_escape_sequences ['\\'] = .ok ['\\'] := by
  refine ⟨fun pre hne hA hB => ?_, by decide⟩
  have h1 := process_trailing_backslash hA hB hne
  refine ⟨h1, ?_⟩
  have hAbody : ∀ c ∈ pre ++ ['\\'], c.toNat < 128 := by
    intro c hc
    rcases List.mem_append.mp hc with h | h
    · exact hA c h
    · simp at h
      subst h
      decide
  rw [stb_narrow hAbody]
  simp only [h1]

/-- C2 witness: concrete instance of the amended statement. -/
theorem C2_witness :
    process_escape_sequences (['x', 'y'] ++ ['\\']) = .errTrailing ∧
    string_literal_to_bytes ('"' :: (['x', 'y'] ++ ['\\']) ++ ['"']) = .panicked :=
  C2_trailing_backslash_panics.1 ['x', 'y'] (by decide) (by decide) (by decide)

/-- C3 counterexample: the claim states that an octal escape with value
above 255 transcodes successfully to the low 8 bits; in the code the token
with body `b` followed by the escape backslash-777 panics
(`u8::from_str_radix` fails and is unwrapped), producing no bytes. -/
theorem C3_counterexample :
    string_literal_to_bytes ['"', 'b', '\\', '7', '7', '7', '"'] = .panicked := by
  decide

/-- C3 (amended): a maximal three-digit octal escape whose value exceeds
255 is not truncated: `process_escape_sequences` panics in the unwrap of
`u8::from_str_radix`, and `string_literal_to_bytes` on the enclosing
narrow token panics as well. -/
theorem C3_octal_overflow_panics (pre : List Char) (d1 d2 d3 : Char)
    (hne : pre ≠ []) (hA : ∀ c ∈ pre, c.toNat < 128) (hB : ∀ c ∈ pre, c ≠ '\\')
    (h1 : isOctalDigit d1 = true) (h2 : isOctalDigit d2 = true)
    (h3 : isOctalDigit d3 = true)
    (hv : 255 < (d1.toNat - 48) * 64 + (d2.toNat - 48) * 8 + (d3.toNat - 48)) :
    process_escape_sequences (pre ++ '\\' :: [d1, d2, d3]) = .panicParse ∧
    string_literal_to_bytes ('"' :: (pre ++ '\\' :: [d1, d2, d3]) ++ ['"']) = .panicked := by
  have hmain := process_octal_overflow hA hB hne h1 h2 h3 hv
  refine ⟨hmain, ?_⟩
  have hAbody : ∀ c ∈ pre ++ '\\' :: [d1, d2, d3], c.toNat < 128 := by
    intro c hc
    rcases List.mem_append.mp hc with h | h
    · exact hA c h
    · simp at h
      rcases h with h | h | h | h <;> subst h
      · decide
      · exact ascii_of_octalDigit h1
      · exact ascii_of_octalDigit h2
      · exact ascii_of_octalDigit h3
  rw [stb_narrow hAbody]
  simp only [hmain]

/-- C3 witness: the body `a` backslash-777 panics concretely. -/
theorem C3_witness :
    process_escape_sequences (['a'] ++ '\\' :: ['7', '7', '7']) = .panicParse ∧
    string_literal_to_bytes ('"' :: (['a'] ++ '\\' :: ['7', '7', '7']) ++ ['"']) = .panicked :=
  C3_octal_overflow_panics ['a'] '7' '7' '7' (by decide) (by decide) (by decide)
    (by decide) (by decide) (by decide) (by decide)

/-- C4: evaluation of the code at the failing inputs of the claim. The
token with body backslash-101 keeps the backslash and the digits (the loop
starts with `skip_until = 0` and `position <= skip_until`, so an escape at
body position 0 is never recognized), yielding four bytes instead of the
single byte 0x41; the token with body `a` backslash-220 yields the two-byte
UTF-8 encoding of U+0090 instead of the single byte 0x90. -/
theorem C4_code_eval :
    string_literal_to_bytes ['"', '\\', '1', '0', '1', '"'] =
      .ok [0x5C, 0x31, 0x30, 0x31] ∧
    string_literal_to_bytes ['"', 'a', '\\', '2', '2', '0', '"'] =
      .ok [0x61, 0xC2, 0x90] := by
  decide

/-- C5: evaluation of the code at the inputs of the claim. The body
`a` backslash-t `b` resolves as the claim says, but a simple escape at the
very first character of the body is skipped (initial `skip_until = 0`
together with `position <= skip_until`), so the body backslash-t `x` keeps
the raw backslash and letter instead of resolving to a tab. -/
theorem C5_code_eval :
    string_literal_to_bytes ['"', 'a', '\\', 't', 'b', '"'] = .ok [0x61, 0x09, 0x62] ∧
    string_literal_to_bytes ['"', '\\', 't', 'x', '"'] = .ok [0x5C, 0x74, 0x78] := by
  decide

/-!  Lemmas about the sliding-window position search.  -/

theorem posAux_some {p : Nat → Bool} {start fuel o : Nat}
    (h : posAux p start fuel = some o) :
    p o = true ∧ start ≤ o ∧ o < start + fuel ∧
      ∀ j, start ≤ j → j < o → p j = false := by
  induction fuel generalizing start with
  | zero => cases h
  | succ fuel ih =>
    rw [posAux] at h
    by_cases hp : p start
    · rw [if_pos hp] at h
      cases h
      exact ⟨hp, Nat.le_refl _, by omega, fun j hj1 hj2 => absurd hj2 (by omega)⟩
    · rw [if_neg hp] at h
      obtain ⟨h1, h2, h3, h4⟩ := ih h
      refine ⟨h1, by omega, by omega, fun j hj1 hj2 => ?_⟩
      rcases Nat.eq_or_lt_of_le hj1 with rfl | hlt
      · exact Bool.eq_false_iff.mpr hp
      · exact h4 j (by omega) hj2

theorem posAux_none {p : Nat → Bool} {start fuel : Nat}
    (h : posAux p start fuel = none) :
    ∀ j, start ≤ j → j < start + fuel → p j = false := by
  induction fuel generalizing start with
  | zero => exact fun j hj1 hj2 => absurd hj2 (by omega)
  | succ fuel ih =>
    rw [posAux] at h
    by_cases hp : p start
    · rw [if_pos hp] at h
      cases h
    · rw [if_neg hp] at h
      intro j hj1 hj2
      rcases Nat.eq_or_lt_of_le hj1 with rfl | hlt
      · exact Bool.eq_false_iff.mpr hp
      · exact ih h j (by omega) (by omega)

theorem windowAt_length (binData : List Nat) (n i : Nat) :
    (windowAt binData n i).length = min n (binData.length - i) := by
  simp [windowAt]

theorem window_match_bound {binData pat : List Nat} {i : Nat} (hne : pat ≠ [])
    (h : windowAt binData pat.length i = pat) :
    i + pat.length ≤ binData.length := by
  have hlen := congrArg List.length h
  rw [windowAt_length] at hlen
  have hpos : 0 < pat.length := List.length_pos.mpr hne
  omega

/-- C7 (confirmed): for a candidate with a nonempty byte pattern, the
scanner reports exactly one confirmed leak at the lowest offset whose
window equals the pattern, and reports nothing, without error, when no
window matches. -/
theorem C7_scanner_lowest_offset (bin : String) (binData : List Nat)
    (leak : PotentialLeak) (hne : leak.bytes ≠ []) :
    ((∃ i, windowAt binData leak.bytes.length i = leak.bytes) →
      ∃ o, find_leaks_in_binary_file bin binData [leak] =
          .ok [⟨leak.leaked_information, ⟨leak.declaration_metadata, ⟨bin, o⟩⟩⟩] ∧
        windowAt binData leak.bytes.length o = leak.bytes ∧
        ∀ j < o, windowAt binData leak.bytes.length j ≠ leak.bytes) ∧
    ((¬ ∃ i, windowAt binData leak.bytes.length i = leak.bytes) →
      find_leaks_in_binary_file bin binData [leak] = .ok []) := by
  constructor
  · rintro ⟨i, hi⟩
    cases hpos : positionOfMatch binData leak.bytes with
    | none =>
      exfalso
      unfold positionOfMatch at hpos
      have hb := window_match_bound hne hi
      have hposlen : 0 < leak.bytes.length := List.length_pos.mpr hne
      have hfalse := posAux_none hpos i (Nat.zero_le i) (by omega)
      simp [hi] at hfalse
    | some o =>
      unfold positionOfMatch at hpos
      obtain ⟨hpo, _, _, hfirst⟩ := posAux_some hpos
      refine ⟨o, ?_, of_decide_eq_true hpo, fun j hj hcontra => ?_⟩
      · simp [find_leaks_in_binary_file, scanOne, positionOfMatch, hne, hpos]
      · have := hfirst j (Nat.zero_le j) hj
        simp [hcontra] at this
  · intro hnm
    cases hpos : positionOfMatch binData leak.bytes with
    | some o =>
      exfalso
      unfold positionOfMatch at hpos
      obtain ⟨hpo, _, _, _⟩ := posAux_some hpos
      exact hnm ⟨o, of_decide_eq_true hpo⟩
    | none =>
      unfold positionOfMatch at hpos
      simp [find_leaks_in_binary_file, scanOne, positionOfMatch, hne, hpos]

/-- C7 witness: a buffer with no window equal to the pattern yields an
empty confirmed list through the theorem. -/
theorem C7_witness :
    find_leaks_in_binary_file "b" [9, 9] [⟨"t", [7], ("f", 1)⟩] = .ok [] :=
  (C7_scanner_lowest_offset "b" [9, 9] ⟨"t", [7], ("f", 1)⟩ (by decide)).2
    (by
      rintro ⟨i, hi⟩
      have hb := window_match_bound (by decide) hi
      simp at hb
      interval_cases i <;> exact absurd hi (by decide))

/-!  The duplicate-merging fold agrees with first-occurrence selection.  -/

theorem mergeAux_eq (leaks : List PotentialLeak) :
    ∀ acc : List PotentialLeak,
      leaks.foldl (fun acc l => if acc.any fun x => leakBEq x l then acc else acc ++ [l]) acc =
        acc ++ firstOccurrenceReps (leaks.filter fun x => !(acc.any fun y => leakBEq y x)) := by
  induction leaks with
  | nil => intro acc; simp [firstOccurrenceReps]
  | cons l ls ih =>
    intro acc
    simp only [List.foldl_cons]
    by_cases h : acc.any (fun x => leakBEq x l) = true
    · rw [if_pos h, ih acc]
      have hdrop : (l :: ls).filter (fun x => !(acc.any fun y => leakBEq y x))
          = ls.filter (fun x => !(acc.any fun y => leakBEq y x)) := by
        simp [List.filter_cons, h]
      rw [hdrop]
    · rw [if_neg h, ih (acc ++ [l])]
      have hcomb : ∀ x : PotentialLeak,
          (!((acc ++ [l]).any fun y => leakBEq y x))
            = (!(leakBEq l x) && !(acc.any fun y => leakBEq y x)) := by
        intro x
        simp only [List.any_append, List.any_cons, List.any_nil, Bool.or_false, Bool.not_or]
        exact Bool.and_comm _ _
      have hstep : ls.filter (fun x => !((acc ++ [l]).any fun y => leakBEq y x))
          = (ls.filter fun x => !(acc.any fun y => leakBEq y x)).filter
              (fun x => !(leakBEq l x)) := by
        rw [List.filter_filter]
        exact List.filter_congr fun x _ => hcomb x
      rw [hstep]
      have hkeep : (l :: ls).filter (fun x => !(acc.any fun y => leakBEq y x))
          = l :: ls.filter (fun x => !(acc.any fun y => leakBEq y x)) := by
        simp [List.filter_cons, h]
      rw [hkeep]
      rw [show firstOccurrenceReps
            (l :: ls.filter fun x => !(acc.any fun y => leakBEq y x))
          = l :: firstOccurrenceReps
              ((ls.filter fun x => !(acc.any fun y => leakBEq y x)).filter
                fun x => !(leakBEq l x)) from by rw [firstOccurrenceReps]]
      simp

/-- C8 (confirmed): equality and hashing of PotentialLeak look only at the
literal text; with merging enabled the retained representative of each
text class is the first admitted occurrence in encounter order, and with
merging disabled the list is kept as is. -/
theorem C8_identity_and_merge :
    (∀ a b : PotentialLeak,
      leakBEq a b = true ↔ a.leaked_information = b.leaked_information) ∧
    (∀ (hasher : String → UInt64) (a b : PotentialLeak),
      a.leaked_information = b.leaked_information →
        leakHash hasher a = leakHash hasher b) ∧
    (∀ leaks : List PotentialLeak,
      dedupIfRequested true leaks = firstOccurrenceReps leaks) ∧
    (∀ leaks : List PotentialLeak, dedupIfRequested false leaks = leaks) := by
  refine ⟨?_, ?_, ?_, ?_⟩
  · intro a b
    simp [leakBEq]
  · intro hasher a b h
    simp [leakHash, h]
  · intro leaks
    show mergeDuplicates leaks = firstOccurrenceReps leaks
    unfold mergeDuplicates
    rw [mergeAux_eq leaks []]
    simp
  · intro leaks
    rfl

/-- C8 witness: concrete checks of the equality, hash and merge parts. -/
theorem C8_witness :
    leakBEq ⟨"s", [1], ("f", 1)⟩ ⟨"s", [2], ("g", 9)⟩ = true ∧
    leakHash String.hash ⟨"s", [1], ("f", 1)⟩ = leakHash String.hash ⟨"s", [2], ("g", 9)⟩ ∧
    dedupIfRequested true [⟨"s", [1], ("f", 1)⟩, ⟨"s", [2], ("g", 9)⟩]
      = firstOccurrenceReps [⟨"s", [1], ("f", 1)⟩, ⟨"s", [2], ("g", 9)⟩] ∧
    dedupIfRequested false [⟨"s", [1], ("f", 1)⟩, ⟨"s", [2], ("g", 9)⟩]
      = [⟨"s", [1], ("f", 1)⟩, ⟨"s", [2], ("g", 9)⟩] :=
  ⟨(C8_identity_and_merge.1 _ _).mpr rfl,
   C8_identity_and_merge.2.1 String.hash ⟨"s", [1], ("f", 1)⟩ ⟨"s", [2], ("g", 9)⟩ rfl,
   C8_identity_and_merge.2.2.1 _,
   C8_identity_and_merge.2.2.2 _⟩

/-- C9 (confirmed): the literal prefix selects the byte encoding: narrow
and u8 literals yield the UTF-8 bytes of the resolved body with no quotes
and no prefix bytes, L and u literals yield 2-byte little-endian UTF-16
code units, U literals yield 4-byte little-endian UTF-32 code units; the
four concrete examples of the spec evaluate to their stated bytes. -/
theorem C9_encoding_selection :
    (∀ body : List Char, (∀ c ∈ body, c.toNat < 128 ∧ c ≠ '\\') →
      string_literal_to_bytes ('"' :: body ++ ['"']) = .ok (utf8Encode body) ∧
      string_literal_to_bytes ('L' :: '"' :: body ++ ['"']) = .ok (utf16leEncode body) ∧
      string_literal_to_bytes ('U' :: '"' :: body ++ ['"']) = .ok (utf32leEncode body) ∧
      string_literal_to_bytes ('u' :: '8' :: '"' :: body ++ ['"']) = .ok (utf8Encode body) ∧
      string_literal_to_bytes ('u' :: '"' :: body ++ ['"']) = .ok (utf16leEncode body)) ∧
    string_literal_to_bytes ['L', '"', 'a', 'b', '"'] = .ok [0x61, 0, 0x62, 0] ∧
    string_literal_to_bytes ['u', '8', '"', 'a', 'b', '"'] = .ok [0x61, 0x62] ∧
    string_literal_to_bytes ['U', '"', 'a', '"'] = .ok [0x61, 0, 0, 0] ∧
    string_literal_to_bytes ['"', 'c', '_', 's', 't', 'r', 'i', 'n', 'g', '"']
      = .ok [0x63, 0x5F, 0x73, 0x74, 0x72, 0x69, 0x6E, 0x67] := by
  refine ⟨fun body hb => ?_, by decide, by decide, by decide, by decide⟩
  have hA : ∀ c ∈ body, c.toNat < 128 := fun c hc => (hb c hc).1
  have hB : ∀ c ∈ body, c ≠ '\\' := fun c hc => (hb c hc).2
  have hp := process_plain hB
  refine ⟨?_, ?_, ?_, ?_, ?_⟩
  · rw [stb_narrow hA]
    simp only [hp]
  · rw [stb_wide hA]
    simp only [hp]
  · rw [stb_utf32 hA]
    simp only [hp]
  · rw [stb_utf8 hA]
    simp only [hp]
  · rw [stb_utf16 hA]
    simp only [hp]

/-- C9 witness: the five prefix forms instantiated at the body `hi`. -/
theorem C9_witness :
    string_literal_to_bytes ('"' :: ['h', 'i'] ++ ['"']) = .ok (utf8Encode ['h', 'i']) ∧
    string_literal_to_bytes ('L' :: '"' :: ['h', 'i'] ++ ['"'])
      = .ok (utf16leEncode ['h', 'i']) ∧
    string_literal_to_bytes ('U' :: '"' :: ['h', 'i'] ++ ['"'])
      = .ok (utf32leEncode ['h', 'i']) ∧
    string_literal_to_bytes ('u' :: '8' :: '"' :: ['h', 'i'] ++ ['"'])
      = .ok (utf8Encode ['h', 'i']) ∧
    string_literal_to_bytes ('u' :: '"' :: ['h', 'i'] ++ ['"'])
      = .ok (utf16leEncode ['h', 'i']) :=
  C9_encoding_selection.1 ['h', 'i'] (by decide)

/-!  An ASCII body can never hit the byte-slice panic: character indices
and byte offsets coincide there. These lemmas feed claim C10.  -/

theorem pesGo_bs_resolve {s rest : List Char} {pos skipU : Nat} {b : List Char}
    (hskip : ¬ pos ≤ skipU) (hb : byteSlice s 0 pos = some b) :
    pesGo s ('\\' :: rest) pos skipU none = pesGo s ('\\' :: rest) pos skipU (some b) := by
  simp [pesGo, hskip, hb]

theorem pesGo_bs_some_trailing {s rest : List Char} {pos skipU : Nat} {b : List Char}
    (hskip : ¬ pos ≤ skipU) (hnone : s[pos + 1]? = none) :
    pesGo s ('\\' :: rest) pos skipU (some b) = .errTrailing := by
  simp [pesGo, hskip, hnone]

theorem pesGo_bs_some_nonoctal {s rest : List Char} {pos skipU : Nat} {b : List Char}
    {fc : Char} (hskip : ¬ pos ≤ skipU) (hfc : s[pos + 1]? = some fc)
    (hoct : isOctalDigit fc = false) :
    pesGo s ('\\' :: rest) pos skipU (some b) =
      pesGo s rest (pos + 1) (pos + 1) (some (b ++ [escChar fc])) := by
  by_cases h1 : fc = 'a'
  · subst h1
    simp [pesGo, hskip, hfc, escChar]
  by_cases h2 : fc = 'b'
  · subst h2
    simp [pesGo, hskip, hfc, escChar]
  by_cases h3 : fc = 't'
  · subst h3
    simp [pesGo, hskip, hfc, escChar]
  by_cases h4 : fc = 'n'
  · subst h4
    simp [pesGo, hskip, hfc, escChar]
  by_cases h5 : fc = 'v'
  · subst h5
    simp [pesGo, hskip, hfc, escChar]
  by_cases h6 : fc = 'f'
  · subst h6
    simp [pesGo, hskip, hfc, escChar]
  by_cases h7 : fc = 'r'
  · subst h7
    simp [pesGo, hskip, hfc, escChar]
  by_cases h8 : fc = ' '
  · subst h8
    simp [pesGo, hskip, hfc, escChar]
  by_cases h9 : fc = '\\'
  · subst h9
    simp [pesGo, hskip, hfc, escChar]
  simp [pesGo, hskip, hfc, h1, h2, h3, h4, h5, h6, h7, h8, h9, hoct, escChar]

theorem pesGo_bs_some_octal {s rest : List Char} {pos skipU : Nat} {b : List Char}
    {fc : Char} (hskip : ¬ pos ≤ skipU) (hfc : s[pos + 1]? = some fc)
    (hoct : isOctalDigit fc = true) :
    pesGo s ('\\' :: rest) pos skipU (some b) =
      (match byteSlice s (pos + 1) (octalEnd s pos) with
       | none => .panicSlice
       | some ds =>
         match parseU8Octal ds with
         | none => .panicParse
         | some v => pesGo s rest (pos + 1) (octalEnd s pos) (some (b ++ [Char.ofNat v]))) := by
  have na : fc ≠ 'a' := isOctalDigit_ne hoct (by decide)
  have nb : fc ≠ 'b' := isOctalDigit_ne hoct (by decide)
  have nt : fc ≠ 't' := isOctalDigit_ne hoct (by decide)
  have nn : fc ≠ 'n' := isOctalDigit_ne hoct (by decide)
  have nv : fc ≠ 'v' := isOctalDigit_ne hoct (by decide)
  have nf : fc ≠ 'f' := isOctalDigit_ne hoct (by decide)
  have nr : fc ≠ 'r' := isOctalDigit_ne hoct (by decide)
  have nsp : fc ≠ ' ' := isOctalDigit_ne hoct (by decide)
  have nbs : fc ≠ '\\' := isOctalDigit_ne hoct (by decide)
  simp [pesGo, hskip, hfc, na, nb, nt, nn, nv, nf, nr, nsp, nbs, hoct]

theorem lt_length_of_getElem?_some {α : Type} {l : List α} {i : Nat} {a : α}
    (h : l[i]? = some a) : i < l.length := by
  by_contra hge
  rw [List.getElem?_eq_none (by omega)] at h
  cases h

theorem octalEnd2_lower (s : List Char) (pos : Nat) : pos + 2 ≤ octalEnd2 s pos := by
  cases h2 : s[pos + 2]? with
  | none =>
    unfold octalEnd2
    simp only [h2]
    omega
  | some d2 =>
    unfold octalEnd2
    simp only [h2]
    split <;> omega

theorem octalEnd2_upper (s : List Char) (pos : Nat) : octalEnd2 s pos ≤ pos + 3 := by
  cases h2 : s[pos + 2]? with
  | none =>
    unfold octalEnd2
    simp only [h2]
    omega
  | some d2 =>
    unfold octalEnd2
    simp only [h2]
    split <;> omega

theorem octalEnd_lower (s : List Char) (pos : Nat) : pos + 2 ≤ octalEnd s pos := by
  have hl := octalEnd2_lower s pos
  cases h3 : s[pos + 3]? with
  | none =>
    have he : octalEnd s pos = octalEnd2 s pos := by
      unfold octalEnd octalEnd3
      simp only [h3]
    omega
  | some d3 =>
    have hge : octalEnd2 s pos ≤ octalEnd s pos := by
      unfold octalEnd octalEnd3
      simp only [h3]
      split <;> omega
    omega

theorem octalEnd_upper (s : List Char) (pos : Nat) (h : pos + 1 < s.length) :
    octalEnd s pos ≤ s.length := by
  have hu : octalEnd2 s pos ≤ pos + 3 := octalEnd2_upper s pos
  have hu2 : octalEnd2 s pos ≤ s.length := by
    cases h2 : s[pos + 2]? with
    | none =>
      have he : octalEnd2 s pos = pos + 2 := by
        unfold octalEnd2
        simp only [h2]
      omega
    | some d2 =>
      have hl2 := lt_length_of_getElem?_some h2
      omega
  cases h3 : s[pos + 3]? with
  | none =>
    have he : octalEnd s pos = octalEnd2 s pos := by
      unfold octalEnd octalEnd3
      simp only [h3]
    omega
  | some d3 =>
    have hl3 := lt_length_of_getElem?_some h3
    have hle : octalEnd s pos ≤ octalEnd2 s pos + 1 := by
      unfold octalEnd octalEnd3
      simp only [h3]
      split <;> omega
    omega

theorem pesGo_ascii_not_panicSlice {s : List Char} (hA : ∀ c ∈ s, c.toNat < 128) :
    ∀ (rest : List Char) (pos skipU : Nat) (owned : Option (List Char)),
      rest = s.drop pos → pesGo s rest pos skipU owned ≠ .panicSlice := by
  intro rest
  induction rest with
  | nil =>
    intro pos skipU owned hr
    rw [pesGo_nil]
    intro hcontra
    cases hcontra
  | cons c rest ih =>
    intro pos skipU owned hr
    have hpos : pos < s.length := by
      by_contra hge
      rw [List.drop_eq_nil_of_le (by omega)] at hr
      cases hr
    have hrest : rest = s.drop (pos + 1) := by
      have hdd : s.drop (pos + 1) = (s.drop pos).drop 1 := by
        rw [List.drop_drop]
      rw [hdd, ← hr, List.drop_one, List.tail_cons]
    by_cases hskip : pos ≤ skipU
    · rw [show pesGo s (c :: rest) pos skipU owned
            = pesGo s rest (pos + 1) skipU owned by simp [pesGo, hskip]]
      exact ih (pos + 1) skipU owned hrest
    · by_cases hc : c = '\\'
      · subst hc
        have key : ∀ b : List Char,
            pesGo s ('\\' :: rest) pos skipU (some b) ≠ .panicSlice := by
          intro b
          cases hfc : s[pos + 1]? with
          | none =>
            rw [pesGo_bs_some_trailing hskip hfc]
            intro hcontra
            cases hcontra
          | some fc =>
            by_cases hoct : isOctalDigit fc = true
            · rw [pesGo_bs_some_octal hskip hfc hoct]
              have h1 : pos + 1 < s.length := lt_length_of_getElem?_some hfc
              have hle : pos + 1 ≤ octalEnd s pos := by
                have := octalEnd_lower s pos
                omega
              have hsl := byteSlice_ascii hA hle (octalEnd_upper s pos h1)
              cases hparse : parseU8Octal
                  ((s.drop (pos + 1)).take (octalEnd s pos - (pos + 1))) with
              | none =>
                simp only [hsl, hparse]
                intro hcontra
                cases hcontra
              | some v =>
                rw [show (match byteSlice s (pos + 1) (octalEnd s pos) with
                     | none => EscOut.panicSlice
                     | some ds =>
                       match parseU8Octal ds with
                       | none => EscOut.panicParse
                       | some v => pesGo s rest (pos + 1) (octalEnd s pos)
                           (some (b ++ [Char.ofNat v])))
                    = pesGo s rest (pos + 1) (octalEnd s pos)
                        (some (b ++ [Char.ofNat v])) from by
                  simp only [hsl, hparse]]
                exact ih (pos + 1) (octalEnd s pos) _ hrest
            · rw [pesGo_bs_some_nonoctal hskip hfc (Bool.eq_false_iff.mpr hoct)]
              exact ih (pos + 1) (pos + 1) _ hrest
        cases owned with
        | some b => exact key b
        | none =>
          have hb := byteSlice_ascii hA (Nat.zero_le pos) (le_of_lt hpos)
          rw [pesGo_bs_resolve hskip hb]
          exact key _
      · cases owned with
        | some b =>
          rw [show pesGo s (c :: rest) pos skipU (some b)
                = pesGo s rest (pos + 1) skipU (some (b ++ [c])) by
            simp [pesGo, hskip, hc]]
          exact ih (pos + 1) skipU _ hrest
        | none =>
          rw [show pesGo s (c :: rest) pos skipU none
                = pesGo s rest (pos + 1) skipU none by
            simp [pesGo, hskip, hc]]
          exact ih (pos + 1) skipU none hrest

/-- C10 counterexample: the claim states that resolution is total on every
ASCII body without a trailing backslash; the all-ASCII body
`x` backslash-777 panics in the octal parse unwrap. -/
theorem C10_counterexample :
    process_escape_sequences ['x', '\\', '7', '7', '7'] = .panicParse := by
  decide

/-- C10 (amended): escape resolution does index the body by character
positions used as byte offsets, and on a pure ASCII body the two coincide,
so the byte-slice panic is impossible there (the only ASCII panic is the
octal parse unwrap); on a body with a multi-byte character before an
escape, the snapshot slice falls inside the character and resolution
panics. -/
theorem C10_ascii_no_slice_panic :
    (∀ s : List Char, (∀ c ∈ s, c.toNat < 128) →
      process_escape_sequences s ≠ .panicSlice) ∧
    process_escape_sequences ['\xE9', '\\', 't'] = .panicSlice := by
  refine ⟨fun s hA => ?_, by decide⟩
  exact pesGo_ascii_not_panicSlice hA s 0 0 none rfl

/-- C10 witness: a concrete ASCII body cannot hit the slice panic. -/
theorem C10_witness :
    process_escape_sequences ['o', 'k', '\\', '1'] ≠ .panicSlice :=
  C10_ascii_no_slice_panic.1 ['o', 'k', '\\', '1'] (by decide)

/-- C6 counterexample: a literal declared in the header `proj/hdr.h`,
which matches a suppression file pattern, still contributes a
PotentialLeak when it is reached through the unsuppressed translation
unit `proj/main.cc`, because the filter only inspects compile commands. -/
theorem C6_counterexample :
    buildCatalog (fun _ => [⟨"\"secret\"", "proj/hdr.h", 3, false⟩])
        [⟨"proj", "main.cc", []⟩]
        (some ⟨[fun p => p == "proj/hdr.h"], []⟩) true
      = .ok [⟨"\"secret\"", [0x73, 0x65, 0x63, 0x72, 0x65, 0x74], ("proj/hdr.h", 3)⟩] ∧
    ([fun p => p == "proj/hdr.h"] : List (String → Bool)).any
        (fun pat => pat "proj/hdr.h") = true := by
  constructor
  · decide
  · decide

/-- C6 (amended): file suppression is applied per translation unit: a
compile command whose directory-joined filename matches a file pattern is
dropped before parsing, so a fully suppressed command list contributes
zero PotentialLeaks; but a literal declared in a file matching a
suppressed pattern is still admitted when it is reached through an
unsuppressed translation unit, because the declaring file path is never
checked against the patterns. -/
theorem C6_file_suppression_per_tu (supp : Suppressions)
    (cmds : List CompileCommand) (provider : CompileCommand → List SourceEntity)
    (ignoreSys : Bool) :
    ((∀ c ∈ cmds,
        (supp.files.any fun pat => pat (pathJoin c.directory c.filename)) = true) →
      buildCatalog provider cmds (some supp) ignoreSys = .ok []) ∧
    (∀ (c : CompileCommand) (e : SourceEntity) (l : PotentialLeak),
      (supp.files.any fun pat => pat (pathJoin c.directory c.filename)) = false →
      e.in_system_header = false →
      leak_of_entity e = .ok l →
      (supp.artifacts.contains l.leaked_information) = false →
      (supp.files.any fun pat => pat e.file) = true →
      buildCatalog (fun _ => [e]) [c] (some supp) ignoreSys = .ok [l]) := by
  constructor
  · intro hall
    unfold buildCatalog
    have hf : filter_suppressed_files cmds (some supp) = [] := by
      unfold filter_suppressed_files
      rw [List.filter_eq_nil_iff]
      intro c hc
      simp [hall c hc]
    rw [hf]
    rfl
  · intro c e l hcmd hsys hle hart hfile
    unfold buildCatalog
    have hf : filter_suppressed_files [c] (some supp) = [c] := by
      unfold filter_suppressed_files
      simp [List.filter_cons, hcmd]
    rw [hf]
    simp [extract_artifacts_from_source_files, extractFromEntities, hsys, hle,
      filter_suppressed_artifacts, hart]
    simpa using hart

/-- C6 witness: concrete instance of the second half of the amended
statement: the declaring header matches the single suppression pattern,
the translation unit does not, and the leak is admitted. -/
theorem C6_witness :
    buildCatalog (fun _ => [⟨"\"tok\"", "lib/inc.h", 7, false⟩]) [⟨"app", "a.cc", []⟩]
        (some ⟨[fun p => p == "lib/inc.h"], []⟩) false
      = .ok [⟨"\"tok\"", [0x74, 0x6F, 0x6B], ("lib/inc.h", 7)⟩] :=
  (C6_file_suppression_per_tu ⟨[fun p => p == "lib/inc.h"], []⟩ [⟨"app", "a.cc", []⟩]
      (fun _ => [⟨"\"tok\"", "lib/inc.h", 7, false⟩]) false).2
    ⟨"app", "a.cc", []⟩ ⟨"\"tok\"", "lib/inc.h", 7, false⟩
    ⟨"\"tok\"", [0x74, 0x6F, 0x6B], ("lib/inc.h", 7)⟩
    (by decide) rfl (by decide) (by decide) (by decide)

end Cpplumber
